import Mathlib

/-!
Verification of the tracext.pygit2 plugin (`pygit2_fs.py`) against its
natural-language specification.

The Python source is shallowly embedded: commits are identified by natural
numbers (a topological numbering of the content-addressed commit graph, so
every parent id is strictly smaller than its child's id, which is the
`WfGraph` hypothesis below), hex object ids and repository paths are lists of
characters, database tables are lists of revision ids, and the external
pygit2 primitives (tree diffing, rename detection) are explicit function
parameters.  Each embedded definition keeps the name and the control
structure of the Python function it translates.
-/

namespace PygitFs

/-- Trac `Changeset` action constants (`Changeset.ADD` etc.). -/
inductive Action where
  | add
  | delete
  | edit
  | move
  | copy
deriving DecidableEq, Repr

/-- Trac `Node` kind constants (`Node.FILE`, `Node.DIRECTORY`). -/
inductive NKind where
  | file
  | directory
deriving DecidableEq, Repr

/-- `_status_map`: maps a libgit2 delta status letter to a Trac action
(statuses outside the map are dropped by the callers). -/
def _status_map (status : Char) : Option Action :=
  if status = 'A' then some Action.add
  else if status = 'D' then some Action.delete
  else if status = 'M' then some Action.edit
  else if status = 'R' then some Action.move
  else if status = 'C' then some Action.copy
  else none

/-! ### Commit graph model (used by `rev_older_than` and by `sync`)

A commit graph is a function `par : Nat → List Nat` giving the ordered parent
list of each commit id.  `WfGraph par` states that the numbering is
topological (each parent id is smaller than the child id), which is how the
acyclicity of the content-addressed git commit graph is represented. -/

/-- The numbering of commit ids is topological: parents are strictly
smaller.  This encodes acyclicity of the git commit DAG. -/
def WfGraph (par : Nat → List Nat) : Prop :=
  ∀ c p, p ∈ par c → p < c

/-- Fuel-bounded enumeration of the commits reachable from `c` (the set of
commits yielded by `git_repos.walk(c, GIT_SORT_TIME)`).  Under `WfGraph`,
fuel `c + 1` already reaches every ancestor of `c`
(`mem_walkFrom_of_mem_walkFrom`). -/
def walkFrom (par : Nat → List Nat) : Nat → Nat → List Nat
  | 0, _ => []
  | fuel + 1, c => c :: (par c).flatMap fun p => walkFrom par fuel p

/-- `GitRepository.rev_older_than(rev1, rev2)`: `False` when the two oids
are equal, otherwise whether `rev1` occurs in the walk from `rev2`. -/
def rev_older_than (par : Nat → List Nat) (rev1 rev2 : Nat) : Bool :=
  if rev1 = rev2 then false
  else decide (rev1 ∈ walkFrom par (rev2 + 1) rev2)

theorem le_of_mem_walkFrom {par : Nat → List Nat} (hwf : WfGraph par) :
    ∀ {fuel c a : Nat}, a ∈ walkFrom par fuel c → a ≤ c := by
  intro fuel
  induction fuel with
  | zero => intro c a h; simp [walkFrom] at h
  | succ f ih =>
    intro c a h
    simp only [walkFrom, List.mem_cons, List.mem_flatMap] at h
    rcases h with rfl | ⟨p, hp, ha⟩
    · exact Nat.le_refl a
    · exact Nat.le_of_lt (Nat.lt_of_le_of_lt (ih ha) (hwf c p hp))

theorem mem_walkFrom_mono {par : Nat → List Nat} :
    ∀ {fuel fuel' c a : Nat}, fuel ≤ fuel' → a ∈ walkFrom par fuel c →
      a ∈ walkFrom par fuel' c := by
  intro fuel
  induction fuel with
  | zero => intro fuel' c a _ h; simp [walkFrom] at h
  | succ f ih =>
    intro fuel' c a hle h
    obtain ⟨f', rfl⟩ : ∃ f', fuel' = f' + 1 :=
      ⟨fuel' - 1, (Nat.succ_pred_eq_of_pos (Nat.lt_of_lt_of_le (Nat.succ_pos f) hle)).symm⟩
    simp only [walkFrom, List.mem_cons, List.mem_flatMap] at h ⊢
    rcases h with rfl | ⟨p, hp, ha⟩
    · exact Or.inl rfl
    · exact Or.inr ⟨p, hp, ih (Nat.le_of_succ_le_succ hle) ha⟩

theorem mem_walkFrom_of_mem_walkFrom {par : Nat → List Nat} (hwf : WfGraph par) :
    ∀ {fuel c a : Nat}, a ∈ walkFrom par fuel c → a ∈ walkFrom par (c + 1) c := by
  intro fuel
  induction fuel with
  | zero => intro c a h; simp [walkFrom] at h
  | succ f ih =>
    intro c a h
    simp only [walkFrom, List.mem_cons, List.mem_flatMap] at h
    rcases h with rfl | ⟨p, hp, ha⟩
    · simp [walkFrom]
    · have hp' : a ∈ walkFrom par (p + 1) p := ih ha
      have hlt : p < c := hwf c p hp
      simp only [walkFrom, List.mem_cons, List.mem_flatMap]
      exact Or.inr ⟨p, hp, mem_walkFrom_mono hlt hp'⟩

theorem mem_walkFrom_trans {par : Nat → List Nat} (hwf : WfGraph par) :
    ∀ {fuel c a b : Nat}, b ∈ walkFrom par fuel c →
      a ∈ walkFrom par (b + 1) b → a ∈ walkFrom par (c + 1) c := by
  intro fuel
  induction fuel with
  | zero => intro c a b h; simp [walkFrom] at h
  | succ f ih =>
    intro c a b hb ha
    simp only [walkFrom, List.mem_cons, List.mem_flatMap] at hb
    rcases hb with rfl | ⟨p, hp, hbp⟩
    · exact ha
    · have hap : a ∈ walkFrom par (p + 1) p := ih hbp ha
      have hlt : p < c := hwf c p hp
      simp only [walkFrom, List.mem_cons, List.mem_flatMap]
      exact Or.inr ⟨p, hp, mem_walkFrom_mono hlt hap⟩

theorem lt_of_mem_walkFrom_ne {par : Nat → List Nat} (hwf : WfGraph par)
    {a c : Nat} (h : a ∈ walkFrom par (c + 1) c) (hne : a ≠ c) : a < c := by
  simp only [walkFrom, List.mem_cons, List.mem_flatMap] at h
  rcases h with rfl | ⟨p, hp, ha⟩
  · exact absurd rfl hne
  · exact Nat.lt_of_le_of_lt (le_of_mem_walkFrom hwf ha) (hwf c p hp)

/-- C8: `rev_older_than` is a strict order on commits of an acyclic commit
graph: it is transitive, and `rev_older_than a a` is `False` for every
commit `a`. -/
theorem rev_older_than_strict_order (par : Nat → List Nat) (hwf : WfGraph par) :
    (∀ a b c, rev_older_than par a b = true → rev_older_than par b c = true →
      rev_older_than par a c = true) ∧
    (∀ a, rev_older_than par a a = false) := by
  constructor
  · intro a b c hab hbc
    simp only [rev_older_than] at hab hbc ⊢
    split at hab
    · exact absurd hab (by simp)
    · split at hbc
      · exact absurd hbc (by simp)
      · rename_i hneab hnebc
        have hmab : a ∈ walkFrom par (b + 1) b := by simpa using hab
        have hmbc : b ∈ walkFrom par (c + 1) c := by simpa using hbc
        have hmac : a ∈ walkFrom par (c + 1) c := mem_walkFrom_trans hwf hmbc hmab
        have hbc' : b < c := lt_of_mem_walkFrom_ne hwf hmbc hnebc
        have hac : a < c := Nat.lt_of_le_of_lt (le_of_mem_walkFrom hwf hmab) hbc'
        simp [Nat.ne_of_lt hac, hmac]
  · intro a
    simp [rev_older_than]

/-- A concrete three-commit chain `0 ← 1 ← 2` used to witness `C8`. -/
def chainPar : Nat → List Nat := fun c =>
  if c = 2 then [1] else if c = 1 then [0] else []

theorem chainPar_wf : WfGraph chainPar := by
  intro c p hp
  unfold chainPar at hp
  split at hp
  · rename_i h2; simp at hp; omega
  · split at hp
    · rename_i h1; simp at hp; omega
    · simp at hp

/-- Witness for C8 at the concrete chain graph. -/
theorem rev_older_than_strict_order_witness :
    rev_older_than chainPar 0 2 = true ∧ rev_older_than chainPar 1 1 = false :=
  ⟨(rev_older_than_strict_order chainPar chainPar_wf).1 0 1 2 (by decide) (by decide),
   (rev_older_than_strict_order chainPar chainPar_wf).2 1⟩

/-! ### C9: `_CachedWalker`

State: `walker` is the not-yet-consumed remainder of the underlying
`git_repos.walk(rev, flags)` iterator, `revs` the Python set of visited hex
ids (modelled as a list used only through membership), `commits` the ordered
list of visited commits.  Commits are identified with their hex ids. -/

structure CachedWalker where
  walker : List Nat
  revs : List Nat
  commits : List Nat
deriving DecidableEq, Repr

/-- The `for commit in self.walker` loop of `_CachedWalker.__contains__`:
consume the walk, appending each commit to `commits` and its id to `revs`,
until `rev` is found or the walk is exhausted. -/
def walkUntil (rev : Nat) : List Nat → List Nat → List Nat → Bool × CachedWalker
  | [], revs, commits => (false, ⟨[], revs, commits⟩)
  | c :: rest, revs, commits =>
    if c = rev then (true, ⟨rest, c :: revs, commits ++ [c]⟩)
    else walkUntil rev rest (c :: revs) (commits ++ [c])

/-- `_CachedWalker.__contains__(rev)`, returning the result together with the
updated walker state. -/
def CachedWalker.containsRev (st : CachedWalker) (rev : Nat) : Bool × CachedWalker :=
  if rev ∈ st.revs then (true, st)
  else walkUntil rev st.walker st.revs st.commits

/-- The backwards index scan of `_CachedWalker.reverse`: find the last index
holding `start` and return `reversed(commits[0:idx + 1])`; scanning the
reversed list from the front is the same computation. -/
def revPrefixAux (start : Nat) : List Nat → List Nat
  | [] => []
  | c :: rest => if c = start then c :: rest else revPrefixAux start rest

/-- `_CachedWalker.reverse(start_rev)`, returning the yielded sequence
together with the updated walker state. -/
def CachedWalker.reverseFrom (st : CachedWalker) (start : Nat) : List Nat × CachedWalker :=
  let r := st.containsRev start
  if r.1 then (revPrefixAux start r.2.commits.reverse, r.2)
  else ([], r.2)

/-- The `_CachedWalker` state invariant: the `revs` set holds exactly the
ids of the commits materialized in `commits`. -/
def WalkerInv (st : CachedWalker) : Prop :=
  ∀ x, x ∈ st.revs ↔ x ∈ st.commits

theorem cons_append_mem_iff {revs commits : List Nat} (c : Nat)
    (h : ∀ x, x ∈ revs ↔ x ∈ commits) :
    ∀ x, x ∈ c :: revs ↔ x ∈ commits ++ [c] := by
  intro x
  simp only [List.mem_cons, List.mem_append, List.mem_singleton, h x]
  tauto

theorem walkUntil_inv (rev : Nat) :
    ∀ (w revs commits : List Nat), (∀ x, x ∈ revs ↔ x ∈ commits) →
      ∀ x, x ∈ (walkUntil rev w revs commits).2.revs ↔
        x ∈ (walkUntil rev w revs commits).2.commits := by
  intro w
  induction w with
  | nil => intro revs commits h x; simpa [walkUntil] using h x
  | cons c rest ih =>
    intro revs commits h x
    simp only [walkUntil]
    split
    · exact cons_append_mem_iff c h x
    · exact ih (c :: revs) (commits ++ [c]) (cons_append_mem_iff c h) x

theorem walkUntil_commits_grow (rev : Nat) :
    ∀ (w revs commits : List Nat),
      ∃ t, (walkUntil rev w revs commits).2.commits = commits ++ t := by
  intro w
  induction w with
  | nil => intro revs commits; exact ⟨[], by simp [walkUntil]⟩
  | cons c rest ih =>
    intro revs commits
    simp only [walkUntil]
    split
    · exact ⟨[c], rfl⟩
    · obtain ⟨t, ht⟩ := ih (c :: revs) (commits ++ [c])
      exact ⟨c :: t, by simp [ht]⟩

theorem walkUntil_revs_grow (rev : Nat) :
    ∀ (w revs commits : List Nat), ∀ x ∈ revs,
      x ∈ (walkUntil rev w revs commits).2.revs := by
  intro w
  induction w with
  | nil => intro revs commits x hx; simpa [walkUntil] using hx
  | cons c rest ih =>
    intro revs commits x hx
    simp only [walkUntil]
    split
    · exact List.mem_cons_of_mem c hx
    · exact ih (c :: revs) (commits ++ [c]) x (List.mem_cons_of_mem c hx)

theorem walkUntil_found_iff (rev : Nat) :
    ∀ (w revs commits : List Nat), rev ∉ commits →
      ((walkUntil rev w revs commits).1 = true ↔
        rev ∈ (walkUntil rev w revs commits).2.commits) := by
  intro w
  induction w with
  | nil =>
    intro revs commits hnot
    simp only [walkUntil]
    constructor
    · intro h; exact absurd h (by simp)
    · intro h; exact absurd h hnot
  | cons c rest ih =>
    intro revs commits hnot
    simp only [walkUntil]
    split
    · rename_i heq
      simp [heq]
    · rename_i hne
      refine ih (c :: revs) (commits ++ [c]) ?_
      intro h
      rcases List.mem_append.mp h with h | h
      · exact hnot h
      · simp only [List.mem_singleton] at h; exact hne h.symm

/-- C9: invariant of `_CachedWalker` preserved by every `__contains__` and
`reverse` call: the state only grows (`commits` is only appended to, `revs`
only gains elements), after any call `revs` holds exactly the ids of the
commits in `commits`, and `__contains__(rev)` returns `True` iff `rev` is
among the commits the underlying walk has materialized so far. -/
theorem cachedWalker_inv (st : CachedWalker) (rev start : Nat) (hinv : WalkerInv st) :
    (WalkerInv (st.containsRev rev).2 ∧ WalkerInv (st.reverseFrom start).2) ∧
    ((∃ t, (st.containsRev rev).2.commits = st.commits ++ t) ∧
     (∀ x ∈ st.revs, x ∈ (st.containsRev rev).2.revs) ∧
     (∃ t, (st.reverseFrom start).2.commits = st.commits ++ t) ∧
     (∀ x ∈ st.revs, x ∈ (st.reverseFrom start).2.revs)) ∧
    ((st.containsRev rev).1 = true ↔ rev ∈ (st.containsRev rev).2.commits) := by
  have hcont : ∀ r : Nat,
      WalkerInv (st.containsRev r).2 ∧
      (∃ t, (st.containsRev r).2.commits = st.commits ++ t) ∧
      (∀ x ∈ st.revs, x ∈ (st.containsRev r).2.revs) := by
    intro r
    unfold CachedWalker.containsRev
    split
    · exact ⟨hinv, ⟨[], by simp⟩, fun x hx => hx⟩
    · exact ⟨walkUntil_inv r st.walker st.revs st.commits hinv,
        walkUntil_commits_grow r st.walker st.revs st.commits,
        walkUntil_revs_grow r st.walker st.revs st.commits⟩
  have hrev2 : (st.reverseFrom start).2 = (st.containsRev start).2 := by
    unfold CachedWalker.reverseFrom
    by_cases h : (st.containsRev start).1 = true <;> simp [h]
  refine ⟨⟨(hcont rev).1, hrev2 ▸ (hcont start).1⟩,
    ⟨(hcont rev).2.1, (hcont rev).2.2, hrev2 ▸ (hcont start).2.1,
      hrev2 ▸ (hcont start).2.2⟩, ?_⟩
  unfold CachedWalker.containsRev
  split
  · rename_i hmem
    simpa using (hinv rev).mp hmem
  · rename_i hmem
    exact walkUntil_found_iff rev st.walker st.revs st.commits
      (fun h => hmem ((hinv rev).mpr h))

/-- Witness for C9 at a concrete walker state. -/
theorem cachedWalker_inv_witness :
    ((⟨[2, 3], [1], [1]⟩ : CachedWalker).containsRev 3).1 = true ↔
      3 ∈ ((⟨[2, 3], [1], [1]⟩ : CachedWalker).containsRev 3).2.commits :=
  (cachedWalker_inv ⟨[2, 3], [1], [1]⟩ 3 1 (fun _ => Iff.rfl)).2.2

/-! ### C2: revision resolution and short revisions

The pygit2 object database is modelled as a flat list of objects with
40-hex-character ids (ids and ref names are lists of characters).
`repo[key]` is prefix lookup: it succeeds iff the key is at least 4
characters long and matches the id of exactly one object.  Reference names
`refs/heads/<n>` / `refs/tags/<n>` are represented already split into their
kind and stripped name. -/

inductive OType where
  | commit
  | tree
  | blob
  | tag
deriving DecidableEq, Repr

structure GitObject where
  oid : List Char
  otype : OType
  /-- For a tag object, the oid its `get_object()` dereferences to. -/
  target : List Char := []
  /-- For a commit object, the oid of its root tree (`commit.tree`). -/
  treeOid : List Char := []
  /-- For a tree object, its entries `(name, filemode, entry oid)`. -/
  entries : List (List Char × Nat × List Char) := []
deriving DecidableEq, Repr

inductive RefName where
  | head (name : List Char)
  | tagref (name : List Char)
  | other (name : List Char)
deriving DecidableEq, Repr

structure ORepo where
  objects : List GitObject
  refs : List (RefName × List Char)
  /-- `git_repos.head.target`; `none` when `head` raises (empty repository). -/
  headTarget : Option (List Char)
  shortrev_len : Nat
deriving DecidableEq, Repr

/-- `git_repos[key]` / `git_repos.get(key)`: lookup by unambiguous id
prefix (libgit2 requires at least 4 characters; a missing or ambiguous
prefix raises `KeyError`/`ValueError`, modelled as `none`). -/
def lookupPrefix (objects : List GitObject) (key : List Char) : Option GitObject :=
  if key.length < 4 then none
  else
    match objects.filter (fun o => key.isPrefixOf o.oid) with
    | [o] => some o
    | _ => none

/-- `GitRepository._get_commit(oid)`: prefix lookup, dereference a tag once
via `get_object()`, and return the object only if it is a commit. -/
def _get_commit (repo : ORepo) (oid : List Char) : Option GitObject :=
  match lookupPrefix repo.objects oid with
  | none => none
  | some g =>
    match if g.otype = OType.tag then lookupPrefix repo.objects g.target else some g with
    | some o => if o.otype = OType.commit then some o else none
    | none => none

/-- The reference scan in `GitRepository._resolve_rev`: find the first
branch or tag whose stripped name equals `rev` and whose target resolves to
a commit (non-branch/tag references and non-commit targets are skipped). -/
def resolveRefs (repo : ORepo) (rev : List Char) : List (RefName × List Char) → Option GitObject
  | [] => none
  | (name, target) :: rest =>
    let m : Bool :=
      match name with
      | RefName.head n => decide (n = rev)
      | RefName.tagref n => decide (n = rev)
      | RefName.other _ => false
    if m then
      match _get_commit repo target with
      | some c => some c
      | none => resolveRefs repo rev rest
    else resolveRefs repo rev rest

/-- `GitRepository._resolve_rev(rev, raises=False)`: empty/absent revision
resolves to the head target object; otherwise try `_get_commit`, then the
reference scan. -/
def _resolve_rev (repo : ORepo) (rev : Option (List Char)) : Option GitObject :=
  match rev with
  | none =>
    match repo.headTarget with
    | none => none
    | some t => lookupPrefix repo.objects t
  | some r =>
    if r = [] then
      match repo.headTarget with
      | none => none
      | some t => lookupPrefix repo.objects t
    else
      match _get_commit repo r with
      | some c => some c
      | none => resolveRefs repo r repo.refs

/-- `GitRepository.normalize_rev(rev)`: the full hex id of the resolved
object (`none` models the `NoSuchChangeset` raise). -/
def normalize_rev (repo : ORepo) (rev : Option (List Char)) : Option (List Char) :=
  (_resolve_rev repo rev).map (·.oid)

/-- `shortrev_len` as clamped in `GitRepository.__init__`:
`max(4, min(shortrev_len, 40))`. -/
def ORepo.clampedLen (repo : ORepo) : Nat :=
  max 4 (min repo.shortrev_len 40)

/-- The `for size in xrange(self.shortrev_len, 40)` loop of
`GitRepository.short_rev`: return the first prefix of `rev` that resolves
unambiguously to a commit object; fall back to the full id. -/
def shortRevLoop (repo : ORepo) (rev : List Char) : List Nat → List Char
  | [] => rev
  | size :: sizes =>
    match lookupPrefix repo.objects (rev.take size) with
    | some g => if g.otype = OType.commit then rev.take size else shortRevLoop repo rev sizes
    | none => shortRevLoop repo rev sizes

/-- `GitRepository.short_rev(rev)`: normalize, then probe prefix lengths
`shortrev_len, …, 39`. -/
def short_rev (repo : ORepo) (rev : Option (List Char)) : Option (List Char) :=
  (normalize_rev repo rev).map fun full =>
    shortRevLoop repo full (List.range' repo.clampedLen (40 - repo.clampedLen))

/-- Well-formedness of the object store: ids are 40 characters, the object
list has no duplicates, and ids identify objects. -/
def ORepoWf (repo : ORepo) : Prop :=
  (∀ o ∈ repo.objects, o.oid.length = 40) ∧
  repo.objects.Nodup ∧
  (∀ o₁ ∈ repo.objects, ∀ o₂ ∈ repo.objects, o₁.oid = o₂.oid → o₁ = o₂)

theorem lookupPrefix_mem {objects : List GitObject} {key : List Char} {o : GitObject}
    (h : lookupPrefix objects key = some o) :
    o ∈ objects ∧ key.isPrefixOf o.oid = true ∧ 4 ≤ key.length := by
  unfold lookupPrefix at h
  split at h
  · exact absurd h (by simp)
  · rename_i hlen
    split at h
    · rename_i o' heq
      obtain rfl : o' = o := by simpa using h
      have hmem : o' ∈ objects.filter (fun ob => key.isPrefixOf ob.oid) := by
        rw [heq]; simp
      have hm := List.mem_filter.mp hmem
      exact ⟨hm.1, by simpa using hm.2, Nat.le_of_not_lt hlen⟩
    · exact absurd h (by simp)

theorem lookupPrefix_unique {objects : List GitObject} {key : List Char} {o c : GitObject}
    (h : lookupPrefix objects key = some o) (hc : c ∈ objects)
    (hpre : key.isPrefixOf c.oid = true) : c = o := by
  unfold lookupPrefix at h
  split at h
  · exact absurd h (by simp)
  · split at h
    · rename_i o' heq
      obtain rfl : o' = o := by simpa using h
      have hmem : c ∈ objects.filter (fun ob => key.isPrefixOf ob.oid) :=
        List.mem_filter.mpr ⟨hc, by simpa using hpre⟩
      rw [heq] at hmem
      simpa using hmem
    · exact absurd h (by simp)

theorem filter_eq_singleton_of_unique {α : Type} {p : α → Bool} {c : α} :
    ∀ {l : List α}, l.Nodup → c ∈ l → p c = true →
      (∀ x ∈ l, p x = true → x = c) → l.filter p = [c] := by
  intro l
  induction l with
  | nil => intro _ hc _ _; simp at hc
  | cons a t ih =>
    intro hnodup hc hpc huniq
    have hna := (List.nodup_cons.mp hnodup).1
    have hnt := (List.nodup_cons.mp hnodup).2
    rcases List.mem_cons.mp hc with rfl | hct
    · have hft : t.filter p = [] := by
        rw [List.filter_eq_nil_iff]
        intro x hx hpx
        exact hna ((huniq x (List.mem_cons_of_mem _ hx) hpx) ▸ hx)
      simp [List.filter_cons, hpc, hft]
    · by_cases hpa : p a = true
      · exact absurd ((huniq a (List.mem_cons_self _ _) hpa) ▸ hct) hna
      · simp only [List.filter_cons, hpa, if_neg, Bool.false_eq_true, if_false]
        exact ih hnt hct hpc fun x hx hpx => huniq x (List.mem_cons_of_mem _ hx) hpx

theorem lookupPrefix_full {repo : ORepo} (hwf : ORepoWf repo) {c : GitObject}
    (hc : c ∈ repo.objects) : lookupPrefix repo.objects c.oid = some c := by
  obtain ⟨hlen, hnodup, hinj⟩ := hwf
  have hl40 : c.oid.length = 40 := hlen c hc
  unfold lookupPrefix
  rw [if_neg (by omega)]
  have hfe : repo.objects.filter (fun ob => c.oid.isPrefixOf ob.oid) = [c] := by
    refine filter_eq_singleton_of_unique hnodup hc ?_ ?_
    · rw [ List.isPrefixOf_iff_prefix]
    · intro x hx hpx
      have hpre : c.oid <+: x.oid := by
        rwa [ List.isPrefixOf_iff_prefix] at hpx
      have : c.oid = x.oid := hpre.eq_of_length (by rw [hl40, hlen x hx])
      exact hinj x hx c hc this.symm
  rw [hfe]

theorem _get_commit_mem {repo : ORepo} {r : List Char} {c : GitObject}
    (h : _get_commit repo r = some c) :
    c ∈ repo.objects ∧ c.otype = OType.commit := by
  unfold _get_commit at h
  split at h
  · exact absurd h (by simp)
  · rename_i g hg
    split at h
    · rename_i o ho
      split at h
      · rename_i hoc
        obtain rfl : o = c := by simpa using h
        refine ⟨?_, hoc⟩
        split at ho
        · exact (lookupPrefix_mem ho).1
        · obtain rfl : g = o := by simpa using ho
          exact (lookupPrefix_mem hg).1
      · exact absurd h (by simp)
    · exact absurd h (by simp)

theorem _get_commit_keylen {repo : ORepo} {r : List Char} {c : GitObject}
    (h : _get_commit repo r = some c) : 4 ≤ r.length := by
  unfold _get_commit at h
  split at h
  · exact absurd h (by simp)
  · rename_i g hg
    exact (lookupPrefix_mem hg).2.2

theorem resolveRefs_commit {repo : ORepo} {rev : List Char} :
    ∀ {l : List (RefName × List Char)} {c : GitObject},
      resolveRefs repo rev l = some c →
      c ∈ repo.objects ∧ c.otype = OType.commit := by
  intro l
  induction l with
  | nil => intro c h; simp [resolveRefs] at h
  | cons nt rest ih =>
    intro c h
    obtain ⟨name, target⟩ := nt
    simp only [resolveRefs] at h
    split at h
    · split at h
      · rename_i c' hc'
        obtain rfl : c' = c := by simpa using h
        exact _get_commit_mem hc'
      · exact ih h
    · exact ih h

theorem _resolve_rev_mem {repo : ORepo} {rev : Option (List Char)} {c : GitObject}
    (h : _resolve_rev repo rev = some c) : c ∈ repo.objects := by
  unfold _resolve_rev at h
  match rev with
  | none =>
    simp only at h
    split at h
    · exact absurd h (by simp)
    · exact (lookupPrefix_mem h).1
  | some r =>
    simp only at h
    split at h
    · split at h
      · exact absurd h (by simp)
      · exact (lookupPrefix_mem h).1
    · split at h
      · rename_i c' hc'
        obtain rfl : c' = c := by simpa using h
        exact (_get_commit_mem hc').1
      · exact (resolveRefs_commit h).1

theorem _get_commit_full {repo : ORepo} (hwf : ORepoWf repo) {c : GitObject}
    (hc : c ∈ repo.objects) (hcty : c.otype = OType.commit) :
    _get_commit repo c.oid = some c := by
  unfold _get_commit
  rw [lookupPrefix_full hwf hc]
  simp [hcty]

theorem shortRevLoop_resolves {repo : ORepo} (hwf : ORepoWf repo) {c : GitObject}
    (hc : c ∈ repo.objects) (hcty : c.otype = OType.commit) :
    ∀ sizes, _get_commit repo (shortRevLoop repo c.oid sizes) = some c := by
  intro sizes
  induction sizes with
  | nil => exact _get_commit_full hwf hc hcty
  | cons size rest ih =>
    simp only [shortRevLoop]
    cases hl : lookupPrefix repo.objects (c.oid.take size) with
    | none => exact ih
    | some g =>
      have hpre : (c.oid.take size).isPrefixOf c.oid = true := by
        rw [ List.isPrefixOf_iff_prefix]
        exact List.take_prefix size c.oid
      obtain rfl : c = g := lookupPrefix_unique hl hc hpre
      simp only [hcty, if_true]
      unfold _get_commit
      rw [hl]
      simp [hcty]

/-- C2: short-id round trip.  For every revision token `rev` that resolves
to a commit `c`, the abbreviated id produced by `short_rev` normalizes back
to exactly the same full commit id: `normalize_rev(short_rev(rev)) =
normalize_rev(rev)`. -/
theorem short_rev_roundtrip (repo : ORepo) (rev : Option (List Char)) (c : GitObject)
    (hwf : ORepoWf repo) (hres : _resolve_rev repo rev = some c)
    (hcty : c.otype = OType.commit) :
    (short_rev repo rev).bind (fun s => normalize_rev repo (some s)) =
      normalize_rev repo rev := by
  have hc : c ∈ repo.objects := _resolve_rev_mem hres
  have hnorm : normalize_rev repo rev = some c.oid := by
    simp [normalize_rev, hres]
  have hshort : short_rev repo rev =
      some (shortRevLoop repo c.oid (List.range' repo.clampedLen (40 - repo.clampedLen))) := by
    simp [short_rev, hnorm, normalize_rev, hres]
  have hsc : _get_commit repo
      (shortRevLoop repo c.oid (List.range' repo.clampedLen (40 - repo.clampedLen))) = some c :=
    shortRevLoop_resolves hwf hc hcty _
  have hslen : 4 ≤ (shortRevLoop repo c.oid
      (List.range' repo.clampedLen (40 - repo.clampedLen))).length :=
    _get_commit_keylen hsc
  have hsne : shortRevLoop repo c.oid
      (List.range' repo.clampedLen (40 - repo.clampedLen)) ≠ [] := by
    intro h
    rw [h] at hslen
    simp at hslen
  have hres2 : _resolve_rev repo
      (some (shortRevLoop repo c.oid (List.range' repo.clampedLen (40 - repo.clampedLen)))) =
      some c := by
    simp only [_resolve_rev]
    rw [if_neg hsne, hsc]
  rw [hshort, hnorm]
  simp [normalize_rev, hres2]

/-- A 40-character commit id used for concrete witnesses. -/
def oidA : List Char := List.replicate 40 'a'

/-- One-commit repository used to witness `C2`. -/
def repoC2 : ORepo :=
  ⟨[⟨oidA, OType.commit, [], [], []⟩], [], some oidA, 7⟩

/-- Witness for C2 at a concrete one-commit repository. -/
theorem short_rev_roundtrip_witness :
    (short_rev repoC2 (some oidA)).bind (fun s => normalize_rev repoC2 (some s)) =
      normalize_rev repoC2 (some oidA) :=
  short_rev_roundtrip repoC2 (some oidA) ⟨oidA, OType.commit, [], [], []⟩
    (by constructor
        · decide
        · constructor
          · decide
          · decide)
    (by decide) (by decide)

/-! ### C3, C4, C7: changeset assembly (`GitChangeset.get_changes`,
`GitRepository._get_changes`, `_walk_tree`)

Tree snapshots are nested entry lists: an entry is
`(name, filemode, repos.get(entry.oid))`, where the looked-up object is
`none` when missing from the object store, a blob, or a subtree.  The
pygit2 diff primitive (`parent_tree.diff_to_tree(commit_tree)`) and the
mutation performed by `diff.find_similar()` are external library calls and
are passed in as explicit function parameters `diffFn` and `findSim`. -/

/-- `_filemode_submodule = 0160000` (octal), i.e. 57344. -/
def _filemode_submodule : Nat := 57344

/-- `posixpath.join(path, entry.name)` with `path = None` at the top level. -/
def pjoin (path : Option (List Char)) (name : List Char) : List Char :=
  match path with
  | none => name
  | some p => p ++ '/' :: name

mutual

/-- The result of `repos.get(entry.oid)` for a tree entry: a missing
object (`None`), a blob, or a subtree. -/
inductive GObjT where
  | missing
  | blob
  | tree (entries : GTree)
deriving DecidableEq

/-- A tree snapshot: the ordered list of entries
`(name, filemode, repos.get(entry.oid))`. -/
inductive GTree where
  | nil
  | cons (name : List Char) (filemode : Nat) (obj : GObjT) (rest : GTree)
deriving DecidableEq

end

/-- List concatenation on tree entry lists. -/
def GTree.app : GTree → GTree → GTree
  | .nil, t => t
  | .cons n f o r, t => .cons n f o (r.app t)

mutual

/-- `_walk_tree(repos, tree, path)`: recursively walk a tree, skipping
submodule entries and entries whose object is missing, recursing into
subtrees and yielding the joined path of every other (blob) entry. -/
def _walk_tree : GTree → Option (List Char) → List (List Char)
  | .nil, _ => []
  | .cons name filemode obj rest, path =>
    walkEntry name filemode obj path ++ _walk_tree rest path

/-- The body of the `for entry in tree` loop of `_walk_tree`. -/
def walkEntry (name : List Char) (filemode : Nat) (obj : GObjT)
    (path : Option (List Char)) : List (List Char) :=
  if filemode = _filemode_submodule then []
  else
    match obj with
    | .missing => []
    | .blob => [pjoin path name]
    | .tree entries => _walk_tree entries (some (pjoin path name))

end

/-- One record of `_iter_changes_from_diff`: old path, new path and the
libgit2 status letter of a patch. -/
structure Patch where
  old_path : List Char
  new_path : List Char
  status : Char
deriving DecidableEq, Repr

/-- `_diff_find_rename_limit = 200`. -/
def _diff_find_rename_limit : Nat := 200

/-- The guard of `diff.find_similar()` in `GitRepository._get_changes`:
`len(diff) <= 200 or sum(patch.status == 'A' for patch in diff) <= 200`. -/
def find_similar_condition (diff : List Patch) : Bool :=
  diff.length ≤ _diff_find_rename_limit ||
    diff.countP (fun p => decide (p.status = 'A')) ≤ _diff_find_rename_limit

/-- The generator inside `GitRepository._get_changes`: keep the patches
whose status is in `_status_map`, as `(old_path, new_path, status)`. -/
def changeTriples (diff : List Patch) : List (Option (List Char) × List Char × Char) :=
  diff.filterMap fun p =>
    if (_status_map p.status).isSome then some (some p.old_path, p.new_path, p.status)
    else none

/-- `sorted(generator, key=lambda item: item[1])`: a stable sort by the
new path (Python string comparison is code-point lexicographic, matching
the `List Char` order). -/
def sortByNewPath (files : List (Option (List Char) × List Char × Char)) :
    List (Option (List Char) × List Char × Char) :=
  List.insertionSort (fun a b => a.2.1 ≤ b.2.1) files

/-- `GitRepository._get_changes(parent_tree, commit_tree)`: diff the two
trees, run rename detection when the guard allows it, and return the
filtered triples sorted by new path. -/
def _get_changes (diffFn : GTree → GTree → List Patch)
    (findSim : List Patch → List Patch) (parent_tree commit_tree : GTree) :
    List (Option (List Char) × List Char × Char) :=
  let diff := diffFn parent_tree commit_tree
  let diff := if find_similar_condition diff then findSim diff else diff
  sortByNewPath (changeTriples diff)

/-- The attributes of a parent commit used by `get_changes`. -/
structure PCommit where
  hex : List Char
  tree : GTree

/-- The attributes of a `pygit2.Commit` used by `get_changes`. -/
structure CommitG where
  hex : List Char
  parents : List PCommit
  tree : GTree

/-- One element yielded by `GitChangeset.get_changes`:
`(path, kind, action, base_path, base_rev)`. -/
abbrev ChangeRec :=
  List Char × NKind × Action × Option (List Char) × Option (List Char)

/-- `GitChangeset.get_changes()`: diff against the first parent if there is
one (even for a merge commit), otherwise emit every path of the recursive
tree walk as an addition; then translate statuses through `_status_map`. -/
def get_changes (diffFn : GTree → GTree → List Patch)
    (findSim : List Patch → List Patch) (commit : CommitG) : List ChangeRec :=
  let fp :
      List (Option (List Char) × List Char × Char) × Option (List Char) :=
    match commit.parents with
    | parent :: _ =>
      (_get_changes diffFn findSim parent.tree commit.tree, some parent.hex)
    | [] =>
      (sortByNewPath ((_walk_tree commit.tree none).map fun name => (none, name, 'A')),
       none)
  fp.1.filterMap fun t =>
    match _status_map t.2.2 with
    | none => none
    | some action =>
      if t.2.2 = 'A' then some (t.2.1, NKind.file, action, none, none)
      else some (t.2.1, NKind.file, action, t.1, fp.2)

/-- C3: for a commit with at least one parent — in particular for every
merge commit — `get_changes` is exactly the assembly of the diff against
the first parent: the result is unchanged if all the other parents are
dropped (so paths changed only relative to later parents contribute no
records), and every non-add record carries the first parent's id as its
base revision. -/
theorem get_changes_merge_first_parent
    (diffFn : GTree → GTree → List Patch) (findSim : List Patch → List Patch)
    (commit : CommitG) (parent : PCommit) (rest : List PCommit)
    (hp : commit.parents = parent :: rest) :
    get_changes diffFn findSim commit =
      get_changes diffFn findSim ⟨commit.hex, [parent], commit.tree⟩ ∧
    ∀ rec ∈ get_changes diffFn findSim commit,
      rec.2.2.1 ≠ Action.add → rec.2.2.2.2 = some parent.hex := by
  constructor
  · simp only [get_changes, hp]
  · intro rec hrec hact
    simp only [get_changes, hp] at hrec
    rcases List.mem_filterMap.mp hrec with ⟨t, ht, hteq⟩
    cases hsm : _status_map t.2.2 with
    | none => rw [hsm] at hteq; simp at hteq
    | some action =>
      rw [hsm] at hteq
      by_cases hA : t.2.2 = 'A'
      · have haction : action = Action.add := by
          rw [hA] at hsm
          have : _status_map 'A' = some Action.add := by decide
          rw [this] at hsm
          simpa using hsm.symm
        simp [hA] at hteq
        obtain rfl : (t.2.1, NKind.file, action, none, none) = rec := by
          simpa [eq_comm] using hteq
        exact absurd haction hact
      · simp [hA] at hteq
        obtain rfl : (t.2.1, NKind.file, action, t.1, some parent.hex) = rec := by
          simpa [eq_comm] using hteq
        rfl

/-- Concrete inputs used to witness C3. -/
def diffOne : GTree → GTree → List Patch := fun _ _ => [⟨['o'], ['n'], 'M'⟩]

def parentP : PCommit := ⟨['p'], GTree.nil⟩

def commitM : CommitG := ⟨['m'], [parentP, ⟨['q'], GTree.nil⟩], GTree.nil⟩

/-- Witness for C3 at a concrete two-parent (merge) commit. -/
theorem get_changes_merge_first_parent_witness :
    get_changes diffOne (fun d => d) commitM =
      get_changes diffOne (fun d => d) ⟨commitM.hex, [parentP], commitM.tree⟩ :=
  (get_changes_merge_first_parent diffOne (fun d => d) commitM parentP
    [⟨['q'], GTree.nil⟩] rfl).1

/-- C4 (amended): rename/copy detection (`diff.find_similar()`) runs if
and only if the number of changed paths is AT MOST 200 or the count of
pure additions is AT MOST 200 (the source uses `<=`, not strict `<`);
when it runs the sorted output is assembled from the detection result, and
when it is skipped the output is assembled from the raw diff, so — the raw
tree diff carrying no `R`/`C` statuses — no move/copy records are
produced. -/
theorem find_similar_threshold (diffFn : GTree → GTree → List Patch)
    (findSim : List Patch → List Patch) (pt ct : GTree) :
    (find_similar_condition (diffFn pt ct) = true ↔
      ((diffFn pt ct).length ≤ _diff_find_rename_limit ∨
        (diffFn pt ct).countP (fun p => decide (p.status = 'A')) ≤
          _diff_find_rename_limit)) ∧
    (find_similar_condition (diffFn pt ct) = true →
      _get_changes diffFn findSim pt ct =
        sortByNewPath (changeTriples (findSim (diffFn pt ct)))) ∧
    (find_similar_condition (diffFn pt ct) = false →
      _get_changes diffFn findSim pt ct =
        sortByNewPath (changeTriples (diffFn pt ct)) ∧
      ((∀ p ∈ diffFn pt ct, p.status ≠ 'R' ∧ p.status ≠ 'C') →
        ∀ t ∈ _get_changes diffFn findSim pt ct, t.2.2 ≠ 'R' ∧ t.2.2 ≠ 'C')) := by
  refine ⟨?_, ?_, ?_⟩
  · simp [find_similar_condition]
  · intro h
    simp [_get_changes, h]
  · intro h
    have hskip : _get_changes diffFn findSim pt ct =
        sortByNewPath (changeTriples (diffFn pt ct)) := by
      simp [_get_changes, h]
    refine ⟨hskip, ?_⟩
    intro hnoRC t ht
    rw [hskip] at ht
    have ht' : t ∈ changeTriples (diffFn pt ct) :=
      (List.mem_insertionSort _).mp ht
    rcases List.mem_filterMap.mp ht' with ⟨p, hpmem, hpeq⟩
    split at hpeq
    · obtain rfl : (some p.old_path, p.new_path, p.status) = t := by
        simpa using hpeq
      exact hnoRC p hpmem
    · exact absurd hpeq (by simp)

/-- The diff used in the C4 counterexample: exactly 200 changed paths, all
of them pure additions. -/
def diff200 : GTree → GTree → List Patch := fun _ _ =>
  List.replicate 200 ⟨[], ['a'], 'A'⟩

/-- The claim's strict-below guard (`< 200` in both disjuncts), stated for
comparison with the source's `find_similar_condition`. -/
def claimRenameCondition (diff : List Patch) : Bool :=
  diff.length < _diff_find_rename_limit ||
    diff.countP (fun p => decide (p.status = 'A')) < _diff_find_rename_limit

set_option maxRecDepth 10000 in
/-- C4 counterexample: on a diff of exactly 200 changed paths, all of them
additions, the claim's strict-below condition is false (the claim says
detection is skipped and has no effect), yet the source's `<=` guard holds
and `find_similar` is invoked — observably, since the behaviour of the
detection changes the output of `_get_changes`. -/
theorem find_similar_threshold_counterexample :
    claimRenameCondition (diff200 GTree.nil GTree.nil) = false ∧
    find_similar_condition (diff200 GTree.nil GTree.nil) = true ∧
    _get_changes diff200 (fun _ => []) GTree.nil GTree.nil = [] ∧
    (_get_changes diff200 (fun d => d) GTree.nil GTree.nil).length = 200 :=
  ⟨by decide, by decide, by decide, by decide⟩

/-- Concrete single-patch diff used to witness the amended C4 theorem. -/
def diffSmall : GTree → GTree → List Patch := fun _ _ => [⟨['x'], ['y'], 'M'⟩]

/-- Witness for the amended C4 theorem: on a one-patch diff the guard
holds, so the output is assembled from the `find_similar` result. -/
theorem find_similar_threshold_witness :
    _get_changes diffSmall (fun _ => []) GTree.nil GTree.nil =
      sortByNewPath (changeTriples []) :=
  (find_similar_threshold diffSmall (fun _ => []) GTree.nil GTree.nil).2.1 (by decide)

instance : IsTotal (Option (List Char) × List Char × Char)
    (fun a b => a.2.1 ≤ b.2.1) :=
  ⟨fun a b => le_total a.2.1 b.2.1⟩

instance : IsTrans (Option (List Char) × List Char × Char)
    (fun a b => a.2.1 ≤ b.2.1) :=
  ⟨fun _ _ _ hab hbc => le_trans hab hbc⟩

theorem filterMap_congr_map {α β : Type} {g : α → Option β} {f : α → β} :
    ∀ {l : List α}, (∀ t ∈ l, g t = some (f t)) → l.filterMap g = l.map f := by
  intro l
  induction l with
  | nil => intro _; rfl
  | cons a t ih =>
    intro h
    simp [List.filterMap_cons, h a (List.mem_cons_self _ _),
      ih fun x hx => h x (List.mem_cons_of_mem _ hx)]

/-- The concrete root tree of the C7 scenario: files `a.txt` and `b/c.txt`
(filemodes `0100644` for blobs, `040000` for the subtree). -/
def treeEx : GTree :=
  .cons ['a', '.', 't', 'x', 't'] 33188 .blob
    (.cons ['b'] 16384
      (.tree (.cons ['c', '.', 't', 'x', 't'] 33188 .blob .nil)) .nil)

theorem _walk_tree_submodule (name : List Char) (fm : Nat) (obj : GObjT)
    (hfm : fm = _filemode_submodule) :
    ∀ (pre post : GTree) (path : Option (List Char)),
      _walk_tree (pre.app (.cons name fm obj post)) path =
        _walk_tree (pre.app post) path
  | .nil, post, path => by
    simp only [GTree.app, _walk_tree]
    unfold walkEntry
    simp [hfm]
  | .cons n f o r, post, path => by
    simp only [GTree.app, _walk_tree]
    rw [_walk_tree_submodule name fm obj hfm r post path]

/-- C7: for a root commit (no parents), `get_changes` emits one
`(path, FILE, add, None, None)` record per path of the recursive tree walk,
sorted ascending by new path; submodule entries contribute nothing to the
walk; and on the concrete scenario tree the result is exactly
`[(a.txt, add), (b/c.txt, add)]` in this order. -/
theorem get_changes_root_adds (diffFn : GTree → GTree → List Patch)
    (findSim : List Patch → List Patch) (commit : CommitG)
    (hroot : commit.parents = []) :
    (∀ rec ∈ get_changes diffFn findSim commit,
      rec.2.1 = NKind.file ∧ rec.2.2.1 = Action.add ∧
      rec.2.2.2.1 = none ∧ rec.2.2.2.2 = none) ∧
    List.Sorted (· ≤ ·) ((get_changes diffFn findSim commit).map (·.1)) ∧
    (∀ p, p ∈ (get_changes diffFn findSim commit).map (·.1) ↔
      p ∈ _walk_tree commit.tree none) ∧
    (∀ (pre post : GTree) (name : List Char) (fm : Nat) (obj : GObjT)
      (path : Option (List Char)), fm = _filemode_submodule →
      _walk_tree (pre.app (.cons name fm obj post)) path =
        _walk_tree (pre.app post) path) ∧
    get_changes diffFn findSim ⟨['r'], [], treeEx⟩ =
      [(['a', '.', 't', 'x', 't'], NKind.file, Action.add, none, none),
       (['b', '/', 'c', '.', 't', 'x', 't'], NKind.file, Action.add, none, none)] := by
  have hmemsort : ∀ t ∈ sortByNewPath ((_walk_tree commit.tree none).map
      fun name => ((none : Option (List Char)), name, 'A')),
      ∃ name ∈ _walk_tree commit.tree none,
        t = ((none : Option (List Char)), name, 'A') := by
    intro t ht
    have := (List.mem_insertionSort _).mp ht
    rcases List.mem_map.mp this with ⟨name, hname, hteq⟩
    exact ⟨name, hname, hteq.symm⟩
  have hform : get_changes diffFn findSim commit =
      (sortByNewPath ((_walk_tree commit.tree none).map
        fun name => ((none : Option (List Char)), name, 'A'))).map
        (fun t => (t.2.1, NKind.file, Action.add, (none : Option (List Char)),
          (none : Option (List Char)))) := by
    simp only [get_changes, hroot]
    refine filterMap_congr_map ?_
    intro t ht
    rcases hmemsort t ht with ⟨name, _, rfl⟩
    rfl
  refine ⟨?_, ?_, ?_, ?_, ?_⟩
  · intro rec hrec
    rw [hform] at hrec
    rcases List.mem_map.mp hrec with ⟨t, _, rfl⟩
    exact ⟨rfl, rfl, rfl, rfl⟩
  · rw [hform, List.map_map]
    have hsorted := List.sorted_insertionSort (fun a b => a.2.1 ≤ b.2.1)
      ((_walk_tree commit.tree none).map
        fun name => ((none : Option (List Char)), name, 'A'))
    exact List.Pairwise.map _ (fun a b h => h) hsorted
  · intro p
    rw [hform, List.map_map]
    constructor
    · intro hp
      rcases List.mem_map.mp hp with ⟨t, ht, hteq⟩
      rcases hmemsort t ht with ⟨name, hname, rfl⟩
      simpa using hteq ▸ hname
    · intro hp
      refine List.mem_map.mpr ⟨((none : Option (List Char)), p, 'A'), ?_, rfl⟩
      exact (List.mem_insertionSort _).mpr (List.mem_map.mpr ⟨p, hp, rfl⟩)
  · intro pre post name fm obj path hfm
    exact _walk_tree_submodule name fm obj hfm pre post path
  · rfl

/-- Witness for C7: the scenario conjunct instantiated at concrete diff
parameters. -/
theorem get_changes_root_adds_witness :
    get_changes diffOne (fun d => d) ⟨['r'], [], treeEx⟩ =
      [(['a', '.', 't', 'x', 't'], NKind.file, Action.add, none, none),
       (['b', '/', 'c', '.', 't', 'x', 't'], NKind.file, Action.add, none, none)] :=
  (get_changes_root_adds diffOne (fun d => d) ⟨['r'], [], treeEx⟩ rfl).2.2.2.2

/-! ### C6: `GitNode._walk_commits` / `GitNode.get_history`

The walk `git_repos.walk(self.rev, GIT_SORT_TIME)` is an explicit list of
commit ids; `par` gives each commit's parent list and `entry c` is the
object id `_get_tree(c.tree, path)` resolves to for the node's fixed path
(`none` when the path is absent at `c`).  The loop state
`some (parent, parent_tree)` carries the previous iteration's first parent
and its cached tree lookup. -/

/-- `tree = parent_tree if parent is not None and parent.oid == commit.oid
else _get_tree(commit.tree, path)`: reuse the previous iteration's parent
tree lookup when the walk revisits the same commit. -/
def cachedTree (entry : Nat → Option Nat) (st : Option (Nat × Option Nat))
    (c : Nat) : Option Nat :=
  match st with
  | some (p, ptree) => if p = c then ptree else entry c
  | none => entry c

/-- `GitNode._walk_commits()`.  `skipMerges` is `self.isfile`. -/
def _walk_commits (skipMerges : Bool) (par : Nat → List Nat)
    (entry : Nat → Option Nat) :
    List Nat → Option (Nat × Option Nat) → List (Nat × Action)
  | [], _ => []
  | c :: rest, st =>
    let tree : Option Nat := cachedTree entry st c
    if skipMerges ∧ (par c).length > 1 then
      _walk_commits skipMerges par entry rest st
    else
      match par c with
      | [] => if tree.isSome then [(c, Action.add)] else []
      | p :: _ =>
        match tree, entry p with
        | none, none => _walk_commits skipMerges par entry rest (some (p, entry p))
        | none, some _ =>
          (c, Action.delete) :: _walk_commits skipMerges par entry rest (some (p, entry p))
        | some _, none =>
          (c, Action.add) :: _walk_commits skipMerges par entry rest (some (p, entry p))
        | some t, some pt =>
          if pt ≠ t then
            (c, Action.edit) :: _walk_commits skipMerges par entry rest (some (p, entry p))
          else _walk_commits skipMerges par entry rest (some (p, entry p))

/-- `GitNode.get_history(limit)`: yield `(path, rev, action)` from
`_walk_commits`, stopping after `limit` events. -/
def get_history (skipMerges : Bool) (par : Nat → List Nat)
    (entry : Nat → Option Nat) (walk : List Nat) (path : List Char)
    (limit : Option Nat) : List (List Char × Nat × Action) :=
  let evs := _walk_commits skipMerges par entry walk none
  (match limit with
   | none => evs
   | some n => evs.take n).map fun ca : Nat × Action => (path, ca.1, ca.2)

/-- The per-commit classification of `_walk_commits` with no merge
special-casing: how a directory walk treats every commit. -/
def classifyWalk (par : Nat → List Nat) (entry : Nat → Option Nat) :
    List Nat → List (Nat × Action)
  | [] => []
  | c :: rest =>
    match par c with
    | [] => if (entry c).isSome then [(c, Action.add)] else []
    | p :: _ =>
      match entry c, entry p with
      | none, none => classifyWalk par entry rest
      | none, some _ => (c, Action.delete) :: classifyWalk par entry rest
      | some _, none => (c, Action.add) :: classifyWalk par entry rest
      | some t, some pt =>
        if pt ≠ t then (c, Action.edit) :: classifyWalk par entry rest
        else classifyWalk par entry rest

/-- Consistency of the `_walk_commits` loop state: the cached tree is the
lookup of the cached parent. -/
def StOk (entry : Nat → Option Nat) (st : Option (Nat × Option Nat)) : Prop :=
  ∀ p ptree, st = some (p, ptree) → ptree = entry p

theorem stOk_none (entry : Nat → Option Nat) : StOk entry none :=
  fun _ _ h => by cases h

theorem stOk_of_eq {entry : Nat → Option Nat} {p : Nat} {x : Option Nat}
    (h : entry p = x) : StOk entry (some (p, x)) := by
  intro a b hab
  injection hab with hab'
  injection hab' with hpa hxb
  subst hpa
  subst hxb
  exact h.symm

theorem cachedTree_eq {entry : Nat → Option Nat} {c : Nat}
    {st : Option (Nat × Option Nat)} (hst : StOk entry st) :
    cachedTree entry st c = entry c := by
  match st with
  | none => rfl
  | some (p, ptree) =>
    have hpt : ptree = entry p := hst p ptree rfl
    subst hpt
    unfold cachedTree
    by_cases hpc : p = c
    · subst hpc; simp
    · simp [hpc]

theorem walk_commits_file_skips_merges (par : Nat → List Nat)
    (entry : Nat → Option Nat) :
    ∀ (walk : List Nat) (st : Option (Nat × Option Nat)),
      ∀ ca ∈ _walk_commits true par entry walk st, (par ca.1).length ≤ 1 := by
  intro walk
  induction walk with
  | nil => intro st ca hca; simp [_walk_commits] at hca
  | cons c rest ih =>
    intro st ca hca
    simp only [_walk_commits] at hca
    split at hca
    · exact ih st ca hca
    · rename_i hcond
      have hlen : (par c).length ≤ 1 := by
        simp at hcond
        omega
      split at hca
      · rename_i hnil
        split at hca
        · rcases List.mem_singleton.mp hca with rfl
          simp [hnil]
        · simp at hca
      · rename_i p tl hcons
        split at hca
        · exact ih _ ca hca
        · rcases List.mem_cons.mp hca with rfl | hca'
          · exact hlen
          · exact ih _ ca hca'
        · rcases List.mem_cons.mp hca with rfl | hca'
          · exact hlen
          · exact ih _ ca hca'
        · split at hca
          · rcases List.mem_cons.mp hca with rfl | hca'
            · exact hlen
            · exact ih _ ca hca'
          · exact ih _ ca hca

theorem walk_commits_dir_classifies (par : Nat → List Nat)
    (entry : Nat → Option Nat) :
    ∀ (walk : List Nat) (st : Option (Nat × Option Nat)), StOk entry st →
      _walk_commits false par entry walk st = classifyWalk par entry walk := by
  intro walk
  induction walk with
  | nil => intro st _; rfl
  | cons c rest ih =>
    intro st hst
    simp only [_walk_commits, classifyWalk]
    rw [cachedTree_eq hst]
    rw [if_neg (by simp)]
    cases hpar : par c with
    | nil => rfl
    | cons p tl =>
      cases hec : entry c <;> cases hep : entry p <;>
        simp [hec, hep, ih _ (stOk_of_eq hep)]

theorem walk_commits_root (par : Nat → List Nat) (entry : Nat → Option Nat)
    (sk : Bool) (r : Nat) (rest : List Nat) (st : Option (Nat × Option Nat))
    (hst : StOk entry st) (hr : par r = []) (he : (entry r).isSome) :
    _walk_commits sk par entry (r :: rest) st = [(r, Action.add)] := by
  simp only [_walk_commits]
  rw [cachedTree_eq hst]
  rw [if_neg (by simp [hr])]
  rw [hr]
  simp [he]

/-- C6: in path-history walking, (a) when the node is a file
(`skip_merges`), no merge commit (more than one parent) is ever yielded;
(b) when the node is a directory, the walk classifies every commit —
merge commits included — by the uniform entry-transition rule
`classifyWalk`; (c) a root commit with the path present yields exactly one
terminal add event and the walk stops, whatever follows in the walk. -/
theorem walk_commits_policy (par : Nat → List Nat) (entry : Nat → Option Nat)
    (walk : List Nat) :
    (∀ ca ∈ _walk_commits true par entry walk none, (par ca.1).length ≤ 1) ∧
    (_walk_commits false par entry walk none = classifyWalk par entry walk) ∧
    (∀ (sk : Bool) (r : Nat) (rest : List Nat) (st : Option (Nat × Option Nat)),
      StOk entry st → par r = [] → (entry r).isSome →
      _walk_commits sk par entry (r :: rest) st = [(r, Action.add)]) :=
  ⟨walk_commits_file_skips_merges par entry walk none,
   walk_commits_dir_classifies par entry walk none (stOk_none entry),
   fun sk r rest st hst hr he => walk_commits_root par entry sk r rest st hst hr he⟩

/-- Concrete graph used to witness C6: `0` is a root, `1`'s parent is `0`,
`2` is a merge of `1` and `0`; the path exists everywhere with the same
object id except at `1`. -/
def par6 : Nat → List Nat := fun c =>
  if c = 2 then [1, 0] else if c = 1 then [0] else []

def entry6 : Nat → Option Nat := fun c => if c = 1 then none else some 7

/-- Witness for C6: at the concrete graph, a walk starting at the root
commit yields exactly its terminal add event. -/
theorem walk_commits_policy_witness :
    _walk_commits false par6 entry6 [0, 1, 2] none = [(0, Action.add)] :=
  (walk_commits_policy par6 entry6 [0, 1, 2]).2.2 false 0 [1, 2] none
    (stOk_none entry6) (by decide) (by decide)

/-! ### C10: `GitRepository.get_node` / `GitNode.__init__`

`get_node` resolves the revision without raising, raises
`NoSuchChangeset` for a truthy unresolvable revision, and otherwise hands
the (possibly absent) commit object to the `GitNode` constructor together
with the normalized path.  Tree descent works over the flat object store
of the C2 model: a commit carries the oid of its root tree, a tree object
carries `(name, filemode, oid)` entries. -/

inductive NodeErr where
  | noSuchChangeset (rev : Option (List Char))
  | noSuchNode (path : List Char) (rev : Option (List Char))
deriving DecidableEq, Repr

/-- The observable attributes of a constructed `GitNode`: `self.rev`
(the normalized revision, `None` on an empty repository) and `self.kind`. -/
structure NodeRes where
  rev : Option (List Char)
  kind : NKind
  path : List Char
deriving DecidableEq, Repr

/-- `GitRepository.normalize_path(path)`: `''` for an absent path,
otherwise the path stripped of leading and trailing slashes. -/
def normalize_path (path : Option (List Char)) : List Char :=
  match path with
  | none => []
  | some p => ((p.dropWhile (· = '/')).reverse.dropWhile (· = '/')).reverse

/-- The `for name in path.split('/')` loop of
`GitRepository._get_tree_entry`: fail when the current object is missing,
not a tree, or lacks the segment; look the child object up by oid and
continue; return the last entry. -/
def treeEntryLoop (repo : ORepo) :
    List (List Char) → Option GitObject → Option (List Char × Nat × List Char)
  | [], _ => none
  | name :: rest, tree =>
    match tree with
    | none => none
    | some t =>
      if t.otype ≠ OType.tree then none
      else
        match t.entries.find? (fun e => decide (e.1 = name)) with
        | none => none
        | some e =>
          if rest = [] then some e
          else treeEntryLoop repo rest (lookupPrefix repo.objects e.2.2)

/-- `GitRepository._get_tree_entry(tree, path)`. -/
def _get_tree_entry (repo : ORepo) (tree : Option GitObject) (path : List Char) :
    Option (List Char × Nat × List Char) :=
  if path = [] then none
  else treeEntryLoop repo (path.splitOn '/') tree

/-- The body of `GitNode.__init__` after the commit has been determined:
resolve the tree entry for a non-empty path, detect submodules, determine
the node kind, raise `NoSuchNode` when no kind applies, and fall back to a
rev-less directory node when there is no commit (empty repository). -/
def git_node_body (repo : ORepo) (path : List Char) (commit : Option GitObject)
    (rev : Option (List Char)) : Except NodeErr NodeRes :=
  match commit with
  | none =>
    if path ≠ [] then Except.error (NodeErr.noSuchNode path rev)
    else Except.ok ⟨none, NKind.directory, path⟩
  | some c =>
    let normrev := some c.oid
    let git_object0 : Option GitObject := lookupPrefix repo.objects c.treeOid
    if path = [] then
      match git_object0 with
      | none => Except.error (NodeErr.noSuchNode path rev)
      | some g =>
        if g.otype = OType.tree then Except.ok ⟨normrev, NKind.directory, path⟩
        else if g.otype = OType.blob then Except.ok ⟨normrev, NKind.file, path⟩
        else Except.error (NodeErr.noSuchNode path rev)
    else
      match _get_tree_entry repo git_object0 path with
      | none => Except.error (NodeErr.noSuchNode path rev)
      | some e =>
        if e.2.1 = _filemode_submodule then
          Except.ok ⟨normrev, NKind.directory, path⟩
        else
          match lookupPrefix repo.objects e.2.2 with
          | none => Except.error (NodeErr.noSuchNode path rev)
          | some g =>
            if g.otype = OType.tree then Except.ok ⟨normrev, NKind.directory, path⟩
            else if g.otype = OType.blob then Except.ok ⟨normrev, NKind.file, path⟩
            else Except.error (NodeErr.noSuchNode path rev)

/-- `GitNode.__init__(repos, path, rev)` as called from `get_node`: the
`rev` argument is the resolved commit object or `None`; a `None` argument
makes the constructor resolve the head itself (and `rev` stays `None`). -/
def git_node_init (repo : ORepo) (path : List Char) (revArg : Option GitObject) :
    Except NodeErr NodeRes :=
  match revArg with
  | some c => git_node_body repo path (some c) (some c.oid)
  | none => git_node_body repo path (_resolve_rev repo none) none

/-- `GitRepository.get_node(path, rev)`. -/
def get_node (repo : ORepo) (path : Option (List Char)) (rev : Option (List Char)) :
    Except NodeErr NodeRes :=
  let commit := _resolve_rev repo rev
  if commit = none ∧ rev ≠ none ∧ rev ≠ some [] then
    Except.error (NodeErr.noSuchChangeset rev)
  else git_node_init repo (normalize_path path) commit

theorem _resolve_rev_empty {repo : ORepo} (hobj : repo.objects = [])
    (hhead : repo.headTarget = none) (rev : Option (List Char)) :
    _resolve_rev repo rev = none := by
  have hlp : ∀ key, lookupPrefix repo.objects key = none := by
    intro key
    unfold lookupPrefix
    rw [hobj]
    split
    · rfl
    · simp
  have hgc : ∀ r, _get_commit repo r = none := by
    intro r
    unfold _get_commit
    rw [hlp r]
  match rev with
  | none => simp [_resolve_rev, hhead]
  | some r =>
    simp only [_resolve_rev]
    split
    · rw [hhead]
    · rw [hgc r]
      induction repo.refs with
      | nil => rfl
      | cons nt rest ih =>
        obtain ⟨name, target⟩ := nt
        simp only [resolveRefs]
        split
        · rw [hgc target]
          exact ih
        · exact ih

/-- C10: on an empty repository (no objects, no references, unborn head),
`get_node` with an empty or absent path and an absent (or empty-string)
revision succeeds with a directory node whose rev is `None`; with a
non-empty (normalized) path it raises `NoSuchNode`; and with a non-empty
unresolvable revision string it raises `NoSuchChangeset` whatever the
path is. -/
theorem get_node_empty_repo (repo : ORepo) (hobj : repo.objects = [])
    (hhead : repo.headTarget = none) :
    (∀ path rev, (rev = none ∨ rev = some []) → normalize_path path = [] →
      get_node repo path rev = Except.ok ⟨none, NKind.directory, []⟩) ∧
    (∀ path rev, (rev = none ∨ rev = some []) → normalize_path path ≠ [] →
      get_node repo path rev =
        Except.error (NodeErr.noSuchNode (normalize_path path) none)) ∧
    (∀ path r, r ≠ [] →
      get_node repo path (some r) =
        Except.error (NodeErr.noSuchChangeset (some r))) := by
  have hres : ∀ rev, _resolve_rev repo rev = none :=
    _resolve_rev_empty hobj hhead
  refine ⟨?_, ?_, ?_⟩
  · intro path rev hrev hpath
    unfold get_node
    rw [hres rev]
    rw [if_neg (by rcases hrev with rfl | rfl <;> simp)]
    unfold git_node_init git_node_body
    rw [hres none]
    simp [hpath]
  · intro path rev hrev hpath
    unfold get_node
    rw [hres rev]
    rw [if_neg (by rcases hrev with rfl | rfl <;> simp)]
    unfold git_node_init git_node_body
    rw [hres none]
    simp [hpath]
  · intro path r hr
    unfold get_node
    rw [hres (some r)]
    rw [if_pos (by simp [hr])]

/-- The empty repository used to witness C10. -/
def emptyRepo : ORepo := ⟨[], [], none, 7⟩

/-- Witness for C10: on the concrete empty repository, the root node query
succeeds with a rev-less directory node. -/
theorem get_node_empty_repo_witness :
    get_node emptyRepo none none = Except.ok ⟨none, NKind.directory, []⟩ :=
  (get_node_empty_repo emptyRepo rfl rfl).1 none none (Or.inl rfl) rfl

/-! ### C1, C5: `GitCachedRepository.sync`

The revision table of the cache is the list `db` of cached revision ids
(`is_synced(rev)` is `rev ∈ db`; the `node_change` rows ride along with
their revision's transactional insert).  Commits are identified by
topologically numbered ids as in the `rev_older_than` model.  `traverse`
is fuel-bounded; under `WfGraph` a large enough fuel reproduces the
unbounded Python recursion, and each theorem below holds for every
positive fuel.  The reference tips are the commits the reference loop of
`sync` obtains after tag peeling (non-commit references are skipped). -/

/-- The `while True` chain walk of `traverse(commit, seen)`: follow first
parents, collecting unseen uncached commits into `commits` and recording
`(len(commits), parents[1:])` for each merge. -/
def chainWalk (par : Nat → List Nat) (db : List Nat) :
    Nat → Nat → List Nat → List Nat → List (Nat × List Nat) →
    List Nat × List (Nat × List Nat) × List Nat
  | 0, _, seen, commits, merges => (commits, merges, seen)
  | fuel + 1, c, seen, commits, merges =>
    if c ∈ seen then (commits, merges, seen)
    else
      if c ∈ db then (commits, merges, c :: seen)
      else
        match par c with
        | [] => (commits ++ [c], merges, c :: seen)
        | p :: rest =>
          chainWalk par db fuel p (c :: seen) (commits ++ [c])
            (if rest = [] then merges else merges ++ [((commits ++ [c]).length, rest)])

/-- The inner `for parent in parents` loop of the merge splice:
`commits[idx:idx] = traverse(parent, seen)` for each extra parent. -/
def spliceParents (T : Nat → List Nat → List Nat × List Nat) (idx : Nat) :
    List Nat → List Nat → List Nat → List Nat × List Nat
  | [], commits, seen => (commits, seen)
  | p :: ps, commits, seen =>
    let r := T p seen
    spliceParents T idx ps (commits.take idx ++ r.1 ++ commits.drop idx) r.2

/-- The outer `for idx, parents in reversed(merges)` loop of the merge
splice. -/
def spliceMerges (T : Nat → List Nat → List Nat × List Nat) :
    List (Nat × List Nat) → List Nat → List Nat → List Nat × List Nat
  | [], commits, seen => (commits, seen)
  | (idx, ps) :: ms, commits, seen =>
    let r := spliceParents T idx ps commits seen
    spliceMerges T ms r.1 r.2

/-- `traverse(commit, seen)` of `GitCachedRepository.sync`: walk the first
parent chain, then recursively splice the unmerged parents, deepest merge
first; returns the commit list (newest first) and the grown `seen` set. -/
def traverse (par : Nat → List Nat) (db : List Nat) :
    Nat → Nat → List Nat → List Nat × List Nat
  | 0, _, seen => ([], seen)
  | fuel + 1, c, seen =>
    let cw := chainWalk par db (fuel + 1) c seen [] []
    spliceMerges (fun p s => traverse par db fuel p s) cw.2.1.reverse cw.1 cw.2.2

/-- The `while commits: commit = commits.pop()` insertion loop, already in
popped (oldest-first) order: each revision is inserted unless the insert
hits an `IntegrityError` (the revision is already cached, the transaction
is rolled back), and the feedback callback is invoked for the revision
either way.  Returns `(db', feedback calls, successfully inserted)`. -/
def insertAll (db : List Nat) : List Nat → List Nat × List Nat × List Nat
  | [] => (db, [], [])
  | rev :: rest =>
    if rev ∈ db then
      let r := insertAll db rest
      (r.1, rev :: r.2.1, r.2.2)
    else
      let r := insertAll (db ++ [rev]) rest
      (r.1, rev :: r.2.1, rev :: r.2.2)

/-- The insertion loop applied to a `traverse` result (popping from the
end of the list is iterating it reversed). -/
def syncRevLoop (db : List Nat) (commits : List Nat) :
    List Nat × List Nat × List Nat :=
  insertAll db commits.reverse

/-- One full pass of the `while True` loop of `sync`: for every reference
tip, traverse and insert, threading the shared `seen` set and the cache.
Returns `(db', feedback sequence, inserted sequence)`. -/
def syncPass (par : Nat → List Nat) (fuel : Nat) :
    List Nat → List Nat → List Nat → List Nat × List Nat × List Nat
  | [], db, _ => (db, [], [])
  | tip :: tips, db, seen =>
    let t := traverse par db fuel tip seen
    let ins := syncRevLoop db t.1
    let rest := syncPass par fuel tips ins.1 t.2
    (rest.1, ins.2.1 ++ rest.2.1, ins.2.2 ++ rest.2.2)

/-- The pass loop of `sync`: repeat full passes until one inserts nothing
(`updated` stays false); `passes` bounds the iteration count (the Python
loop terminates because the reachable commit set is finite), and the
boolean records whether the normal exit was reached.  Returns
`(db', all inserted revisions, completed)`. -/
def syncLoop (par : Nat → List Nat) (fuel : Nat) (tips : List Nat) :
    Nat → List Nat → List Nat × List Nat × Bool
  | 0, db => (db, [], false)
  | passes + 1, db =>
    let p := syncPass par fuel tips db []
    if p.2.2.isEmpty then (p.1, p.2.2, true)
    else
      let rest := syncLoop par fuel tips passes p.1
      (rest.1, p.2.2 ++ rest.2.1, rest.2.2)

theorem insertAll_feedback (db : List Nat) :
    ∀ l : List Nat, (insertAll db l).2.1 = l := by
  intro l
  induction l generalizing db with
  | nil => rfl
  | cons rev rest ih =>
    simp only [insertAll]
    split
    · simp [ih db]
    · simp [ih (db ++ [rev])]

theorem insertAll_db_sub (db : List Nat) :
    ∀ (l : List Nat), ∀ x ∈ db, x ∈ (insertAll db l).1 := by
  intro l
  induction l generalizing db with
  | nil => intro x hx; simpa [insertAll] using hx
  | cons rev rest ih =>
    intro x hx
    simp only [insertAll]
    split
    · exact ih db x hx
    · exact ih (db ++ [rev]) x (List.mem_append.mpr (Or.inl hx))

theorem insertAll_mem (db : List Nat) :
    ∀ (l : List Nat), ∀ x ∈ l, x ∈ (insertAll db l).1 := by
  intro l
  induction l generalizing db with
  | nil => intro x hx; simp at hx
  | cons rev rest ih =>
    intro x hx
    simp only [insertAll]
    rcases List.mem_cons.mp hx with rfl | hx'
    · split
      · rename_i hmem
        exact insertAll_db_sub db rest x hmem
      · exact insertAll_db_sub (db ++ [x]) rest x (List.mem_append.mpr (Or.inr (by simp)))
    · split
      · exact ih db x hx'
      · exact ih (db ++ [rev]) x hx'

theorem insertAll_empty_inserted (db : List Nat) :
    ∀ l : List Nat, (insertAll db l).2.2 = [] → (insertAll db l).1 = db := by
  intro l
  induction l generalizing db with
  | nil => intro _; rfl
  | cons rev rest ih =>
    simp only [insertAll]
    split
    · intro h
      exact ih db h
    · intro h
      simp at h

theorem chainWalk_seen_sub (par : Nat → List Nat) (db : List Nat) :
    ∀ (fuel c : Nat) (seen commits : List Nat) (merges : List (Nat × List Nat)),
      ∀ x ∈ seen, x ∈ (chainWalk par db fuel c seen commits merges).2.2 := by
  intro fuel
  induction fuel with
  | zero => intro c seen commits merges x hx; simpa [chainWalk] using hx
  | succ f ih =>
    intro c seen commits merges x hx
    simp only [chainWalk]
    split
    · exact hx
    · split
      · exact List.mem_cons_of_mem c hx
      · split
        · exact List.mem_cons_of_mem c hx
        · exact ih _ _ _ _ x (List.mem_cons_of_mem c hx)

theorem chainWalk_self (par : Nat → List Nat) (db : List Nat)
    (fuel c : Nat) (seen commits : List Nat) (merges : List (Nat × List Nat))
    (hf : 1 ≤ fuel) :
    c ∈ (chainWalk par db fuel c seen commits merges).2.2 := by
  match fuel, hf with
  | f + 1, _ =>
    simp only [chainWalk]
    split
    · assumption
    · split
      · exact List.mem_cons_self c _
      · split
        · exact List.mem_cons_self c _
        · exact chainWalk_seen_sub par db f _ _ _ _ c (List.mem_cons_self c _)

theorem chainWalk_commits_sub (par : Nat → List Nat) (db : List Nat) :
    ∀ (fuel c : Nat) (seen commits : List Nat) (merges : List (Nat × List Nat)),
      ∀ x ∈ commits, x ∈ (chainWalk par db fuel c seen commits merges).1 := by
  intro fuel
  induction fuel with
  | zero => intro c seen commits merges x hx; simpa [chainWalk] using hx
  | succ f ih =>
    intro c seen commits merges x hx
    simp only [chainWalk]
    split
    · exact hx
    · split
      · exact hx
      · split
        · exact List.mem_append.mpr (Or.inl hx)
        · exact ih _ _ _ _ x (List.mem_append.mpr (Or.inl hx))

theorem chainWalk_T3 (par : Nat → List Nat) (db : List Nat) :
    ∀ (fuel c : Nat) (seen commits : List Nat) (merges : List (Nat × List Nat)),
      ∀ x ∈ (chainWalk par db fuel c seen commits merges).2.2,
        x ∈ seen ∨ x ∈ db ∨ x ∈ (chainWalk par db fuel c seen commits merges).1 := by
  intro fuel
  induction fuel with
  | zero => intro c seen commits merges x hx; exact Or.inl hx
  | succ f ih =>
    intro c seen commits merges x hx
    by_cases hs : c ∈ seen
    · exact Or.inl (by simpa [chainWalk, hs] using hx)
    · by_cases hd : c ∈ db
      · simp only [chainWalk, if_neg hs, if_pos hd] at hx ⊢
        rcases List.mem_cons.mp hx with rfl | hx'
        · exact Or.inr (Or.inl hd)
        · exact Or.inl hx'
      · cases hpar : par c with
        | nil =>
          simp only [chainWalk, if_neg hs, if_neg hd, hpar] at hx ⊢
          rcases List.mem_cons.mp hx with rfl | hx'
          · exact Or.inr (Or.inr (List.mem_append.mpr (Or.inr (by simp))))
          · exact Or.inl hx'
        | cons p rest =>
          simp only [chainWalk, if_neg hs, if_neg hd, hpar] at hx ⊢
          rcases ih p (c :: seen) (commits ++ [c]) _ x hx with h | h | h
          · rcases List.mem_cons.mp h with rfl | h'
            · refine Or.inr (Or.inr ?_)
              exact chainWalk_commits_sub par db f _ _ _ _ x
                (List.mem_append.mpr (Or.inr (by simp)))
            · exact Or.inl h'
          · exact Or.inr (Or.inl h)
          · exact Or.inr (Or.inr h)

theorem spliceParents_commits_sub (T : Nat → List Nat → List Nat × List Nat)
    (idx : Nat) :
    ∀ (ps commits seen : List Nat), ∀ x ∈ commits,
      x ∈ (spliceParents T idx ps commits seen).1 := by
  intro ps
  induction ps with
  | nil => intro commits seen x hx; exact hx
  | cons p ps ih =>
    intro commits seen x hx
    simp only [spliceParents]
    refine ih _ _ x ?_
    have hx' : x ∈ commits.take idx ∨ x ∈ commits.drop idx := by
      have h := List.take_append_drop idx commits
      rw [← h] at hx
      exact List.mem_append.mp hx
    rcases hx' with h | h
    · exact List.mem_append.mpr (Or.inl (List.mem_append.mpr (Or.inl h)))
    · exact List.mem_append.mpr (Or.inr h)

theorem spliceParents_seen_sub (T : Nat → List Nat → List Nat × List Nat)
    (hT : ∀ p s, ∀ x ∈ s, x ∈ (T p s).2) (idx : Nat) :
    ∀ (ps commits seen : List Nat), ∀ x ∈ seen,
      x ∈ (spliceParents T idx ps commits seen).2 := by
  intro ps
  induction ps with
  | nil => intro commits seen x hx; exact hx
  | cons p ps ih =>
    intro commits seen x hx
    simp only [spliceParents]
    exact ih _ _ x (hT p seen x hx)

theorem spliceParents_T3 (T : Nat → List Nat → List Nat × List Nat)
    (db : List Nat) (_hT : ∀ p s, ∀ x ∈ s, x ∈ (T p s).2)
    (hT3 : ∀ p s, ∀ x ∈ (T p s).2, x ∈ s ∨ x ∈ db ∨ x ∈ (T p s).1) (idx : Nat) :
    ∀ (ps commits seen : List Nat), ∀ x ∈ (spliceParents T idx ps commits seen).2,
      x ∈ seen ∨ x ∈ db ∨ x ∈ (spliceParents T idx ps commits seen).1 := by
  intro ps
  induction ps with
  | nil => intro commits seen x hx; exact Or.inl hx
  | cons p ps ih =>
    intro commits seen x hx
    simp only [spliceParents] at hx ⊢
    rcases ih _ _ x hx with h | h | h
    · rcases hT3 p seen x h with h' | h' | h'
      · exact Or.inl h'
      · exact Or.inr (Or.inl h')
      · refine Or.inr (Or.inr ?_)
        exact spliceParents_commits_sub T idx ps _ _ x
          (List.mem_append.mpr (Or.inl (List.mem_append.mpr (Or.inr h'))))
    · exact Or.inr (Or.inl h)
    · exact Or.inr (Or.inr h)

theorem spliceMerges_commits_sub (T : Nat → List Nat → List Nat × List Nat) :
    ∀ (ms : List (Nat × List Nat)) (commits seen : List Nat), ∀ x ∈ commits,
      x ∈ (spliceMerges T ms commits seen).1 := by
  intro ms
  induction ms with
  | nil => intro commits seen x hx; exact hx
  | cons m ms ih =>
    intro commits seen x hx
    obtain ⟨idx, ps⟩ := m
    simp only [spliceMerges]
    exact ih _ _ x (spliceParents_commits_sub T idx ps commits seen x hx)

theorem spliceMerges_seen_sub (T : Nat → List Nat → List Nat × List Nat)
    (hT : ∀ p s, ∀ x ∈ s, x ∈ (T p s).2) :
    ∀ (ms : List (Nat × List Nat)) (commits seen : List Nat), ∀ x ∈ seen,
      x ∈ (spliceMerges T ms commits seen).2 := by
  intro ms
  induction ms with
  | nil => intro commits seen x hx; exact hx
  | cons m ms ih =>
    intro commits seen x hx
    obtain ⟨idx, ps⟩ := m
    simp only [spliceMerges]
    exact ih _ _ x (spliceParents_seen_sub T hT idx ps commits seen x hx)

theorem spliceMerges_T3 (T : Nat → List Nat → List Nat × List Nat)
    (db : List Nat) (hT : ∀ p s, ∀ x ∈ s, x ∈ (T p s).2)
    (hT3 : ∀ p s, ∀ x ∈ (T p s).2, x ∈ s ∨ x ∈ db ∨ x ∈ (T p s).1) :
    ∀ (ms : List (Nat × List Nat)) (commits seen : List Nat),
      ∀ x ∈ (spliceMerges T ms commits seen).2,
      x ∈ seen ∨ x ∈ db ∨ x ∈ (spliceMerges T ms commits seen).1 := by
  intro ms
  induction ms with
  | nil => intro commits seen x hx; exact Or.inl hx
  | cons m ms ih =>
    intro commits seen x hx
    obtain ⟨idx, ps⟩ := m
    simp only [spliceMerges] at hx ⊢
    rcases ih _ _ x hx with h | h | h
    · rcases spliceParents_T3 T db hT hT3 idx ps commits seen x h with h' | h' | h'
      · exact Or.inl h'
      · exact Or.inr (Or.inl h')
      · exact Or.inr (Or.inr (spliceMerges_commits_sub T ms _ _ x h'))
    · exact Or.inr (Or.inl h)
    · exact Or.inr (Or.inr h)

theorem traverse_seen_sub (par : Nat → List Nat) (db : List Nat) :
    ∀ (fuel c : Nat) (seen : List Nat), ∀ x ∈ seen,
      x ∈ (traverse par db fuel c seen).2 := by
  intro fuel
  induction fuel with
  | zero => intro c seen x hx; exact hx
  | succ f ih =>
    intro c seen x hx
    simp only [traverse]
    exact spliceMerges_seen_sub _ (fun p s y hy => ih p s y hy) _ _ _ x
      (chainWalk_seen_sub par db (f + 1) c seen [] [] x hx)

theorem traverse_self (par : Nat → List Nat) (db : List Nat)
    (fuel c : Nat) (seen : List Nat) (hf : 1 ≤ fuel) :
    c ∈ (traverse par db fuel c seen).2 := by
  match fuel, hf with
  | f + 1, _ =>
    simp only [traverse]
    exact spliceMerges_seen_sub _ (fun p s y hy => traverse_seen_sub par db f p s y hy)
      _ _ _ c (chainWalk_self par db (f + 1) c seen [] [] (by omega))

theorem traverse_T3 (par : Nat → List Nat) (db : List Nat) :
    ∀ (fuel c : Nat) (seen : List Nat), ∀ x ∈ (traverse par db fuel c seen).2,
      x ∈ seen ∨ x ∈ db ∨ x ∈ (traverse par db fuel c seen).1 := by
  intro fuel
  induction fuel with
  | zero => intro c seen x hx; exact Or.inl hx
  | succ f ih =>
    intro c seen x hx
    simp only [traverse] at hx ⊢
    rcases spliceMerges_T3 _ db (fun p s y hy => traverse_seen_sub par db f p s y hy)
        (fun p s y hy => ih p s y hy) _ _ _ x hx with h | h | h
    · rcases chainWalk_T3 par db (f + 1) c seen [] [] x h with h' | h' | h'
      · exact Or.inl h'
      · exact Or.inr (Or.inl h')
      · exact Or.inr (Or.inr (spliceMerges_commits_sub _ _ _ _ x h'))
    · exact Or.inr (Or.inl h)
    · exact Or.inr (Or.inr h)

theorem traverse_cached_empty (par : Nat → List Nat) (db : List Nat)
    (fuel c : Nat) (seen : List Nat) (hc : c ∈ db) :
    (traverse par db fuel c seen).1 = [] := by
  match fuel with
  | 0 => rfl
  | f + 1 =>
    by_cases hs : c ∈ seen
    · simp [traverse, chainWalk, hs, spliceMerges]
    · simp [traverse, chainWalk, hs, hc, spliceMerges]

theorem syncPass_db_sub (par : Nat → List Nat) (fuel : Nat) :
    ∀ (tips db seen : List Nat), ∀ x ∈ db,
      x ∈ (syncPass par fuel tips db seen).1 := by
  intro tips
  induction tips with
  | nil => intro db seen x hx; exact hx
  | cons tip tips ih =>
    intro db seen x hx
    simp only [syncPass]
    exact ih _ _ x (insertAll_db_sub db _ x hx)

theorem syncPass_tips_mem (par : Nat → List Nat) (fuel : Nat) (hf : 1 ≤ fuel) :
    ∀ (tips db seen : List Nat), (∀ x ∈ seen, x ∈ db) →
      ∀ tip ∈ tips, tip ∈ (syncPass par fuel tips db seen).1 := by
  intro tips
  induction tips with
  | nil => intro db seen _ tip ht; simp at ht
  | cons tip tips ih =>
    intro db seen hseen t ht
    simp only [syncPass]
    have hins : ∀ x ∈ (traverse par db fuel tip seen).2,
        x ∈ (syncRevLoop db (traverse par db fuel tip seen).1).1 := by
      intro x hx
      rcases traverse_T3 par db fuel tip seen x hx with h | h | h
      · exact insertAll_db_sub db _ x (hseen x h)
      · exact insertAll_db_sub db _ x h
      · exact insertAll_mem db _ x (by simpa using h)
    rcases List.mem_cons.mp ht with rfl | ht'
    · refine syncPass_db_sub par fuel tips _ _ t ?_
      exact hins t (traverse_self par db fuel t seen hf)
    · exact ih _ _ hins t ht'

theorem syncPass_all_cached (par : Nat → List Nat) (fuel₂ : Nat) :
    ∀ (tips db seen : List Nat), (∀ tip ∈ tips, tip ∈ db) →
      syncPass par fuel₂ tips db seen = (db, [], []) := by
  intro tips
  induction tips with
  | nil => intro db seen _; rfl
  | cons tip tips ih =>
    intro db seen htips
    have h1 : (traverse par db fuel₂ tip seen).1 = [] :=
      traverse_cached_empty par db fuel₂ tip seen (htips tip (List.mem_cons_self _ _))
    have hrest := ih db (traverse par db fuel₂ tip seen).2
      (fun x hx => htips x (List.mem_cons_of_mem _ hx))
    simp [syncPass, h1, syncRevLoop, insertAll, hrest]

theorem syncLoop_completed_tips (par : Nat → List Nat) (fuel : Nat)
    (hf : 1 ≤ fuel) (tips : List Nat) :
    ∀ (passes : Nat) (db : List Nat),
      (syncLoop par fuel tips passes db).2.2 = true →
      ∀ tip ∈ tips, tip ∈ (syncLoop par fuel tips passes db).1 := by
  intro passes
  induction passes with
  | zero => intro db h; simp [syncLoop] at h
  | succ n ih =>
    intro db h tip ht
    simp only [syncLoop] at h ⊢
    by_cases hc : (syncPass par fuel tips db []).2.2.isEmpty = true
    · rw [if_pos hc]
      exact syncPass_tips_mem par fuel hf tips db [] (by simp) tip ht
    · rw [if_neg hc] at h ⊢
      exact ih _ (by simpa using h) tip ht

/-- C1: synchronization is idempotent.  After one full pass of `sync`
(and hence after any completed `sync()` call, whose pass loop only exits
through a pass), every reference tip is cached, so in a pass run on the
resulting cache `traverse` returns the empty list for every reference
(its very first `is_synced`/`seen` check breaks the chain walk), the
pass performs zero inserts, and a second completed `sync()` call inserts
nothing and leaves the cache unchanged. -/
theorem sync_idempotent (par : Nat → List Nat) (fuel : Nat) (hf : 1 ≤ fuel)
    (tips db seen : List Nat) (hseen : ∀ x ∈ seen, x ∈ db) :
    (∀ tip ∈ tips, ∀ (fuel' : Nat) (seen' : List Nat),
      (traverse par (syncPass par fuel tips db seen).1 fuel' tip seen').1 = []) ∧
    (∀ (fuel₂ : Nat) (seen₂ : List Nat),
      syncPass par fuel₂ tips (syncPass par fuel tips db seen).1 seen₂ =
        ((syncPass par fuel tips db seen).1, [], [])) ∧
    (∀ (passes : Nat) (db₀ db₁ ins : List Nat),
      syncLoop par fuel tips passes db₀ = (db₁, ins, true) →
      ∀ (m fuel₂ : Nat), 1 ≤ m →
        syncLoop par fuel₂ tips m db₁ = (db₁, [], true)) := by
  have htips1 : ∀ tip ∈ tips, tip ∈ (syncPass par fuel tips db seen).1 :=
    syncPass_tips_mem par fuel hf tips db seen hseen
  refine ⟨?_, ?_, ?_⟩
  · intro tip ht fuel' seen'
    exact traverse_cached_empty par _ fuel' tip seen' (htips1 tip ht)
  · intro fuel₂ seen₂
    exact syncPass_all_cached par fuel₂ tips _ seen₂ htips1
  · intro passes db₀ db₁ ins hL m fuel₂ hm
    have htips : ∀ tip ∈ tips, tip ∈ db₁ := by
      intro t ht
      have h2 : (syncLoop par fuel tips passes db₀).2.2 = true := by rw [hL]
      have h3 := syncLoop_completed_tips par fuel hf tips passes db₀ h2 t ht
      rwa [hL] at h3
    match m, hm with
    | m' + 1, _ =>
      simp only [syncLoop]
      rw [syncPass_all_cached par fuel₂ tips db₁ [] htips]
      simp

/-- The trivial one-commit graph used to witness C1. -/
def par0 : Nat → List Nat := fun _ => []

/-- Witness for C1: after a pass over the one-commit graph, a traverse of
the tip against the updated cache discovers nothing. -/
theorem sync_idempotent_witness :
    (traverse par0 (syncPass par0 1 [0] [] []).1 1 0 []).1 = [] :=
  (sync_idempotent par0 1 (by decide) [0] [] [] (by simp)).1 0 (by simp) 1 []

/-- C5 (amended): during one insertion loop of `sync`, the feedback
callback is invoked exactly once per discovered commit, in insertion
(oldest-first) order — i.e. the feedback sequence is exactly the reversed
traverse list — regardless of whether each insert succeeded or failed with
`IntegrityError`. -/
theorem sync_feedback_order (db commits : List Nat) :
    (syncRevLoop db commits).2.1 = commits.reverse ∧
    (commits.Nodup → (syncRevLoop db commits).2.1.Nodup) ∧
    (∀ rev ∈ commits, rev ∈ (syncRevLoop db commits).2.1) := by
  have hfb : (syncRevLoop db commits).2.1 = commits.reverse :=
    insertAll_feedback db commits.reverse
  refine ⟨hfb, ?_, ?_⟩
  · intro hnd
    rw [hfb]
    simpa using hnd
  · intro rev hrev
    rw [hfb]
    simpa using hrev

/-- C5 counterexample: a revision whose insert fails with
`IntegrityError` (a concurrent writer already cached revision 5, so
nothing is inserted) still gets a feedback invocation, contradicting the
claim that feedback is not invoked for such revisions. -/
theorem sync_feedback_counterexample :
    (syncRevLoop [5] [5]).2.2 = [] ∧ (syncRevLoop [5] [5]).2.1 = [5] ∧
    (syncRevLoop [5] [5]).2.1 ≠ (syncRevLoop [5] [5]).2.2 := by
  refine ⟨by decide, by decide, by decide⟩

/-- Witness for the amended C5 theorem at concrete inputs. -/
theorem sync_feedback_order_witness :
    (syncRevLoop [5] [7, 6]).2.1 = [6, 7] :=
  (sync_feedback_order [5] [7, 6]).1

end PygitFs
